import Mathlib

/-!
# A shallow embedding of the `falco_event` binary codec

This file embeds, in Lean, the binary event codec of the `plugin-sdk-rs`
repository: the per-field-type encoders/decoders (`ToBytes` / `FromBytes`),
the socket-address codec (`src/falco_event/src/types/net/sockaddr.rs`), the
string-array and string-pair-array codecs
(`src/falco_event/src/types/string/cstr_array.rs`, `cstr_pair_array.rs`),
the boolean codec (`src/falco_event/src/types/primitive/bool.rs`), the code
generated by the `falco_event_derive` macros for event payloads
(`src/falco_event_derive/src/binary_payload.rs`), for dynamic parameters
(`src/falco_event_derive/src/dynamic_params.rs`) and for the typed event
registry (`src/falco_event_derive/src/event_info.rs`).

Byte buffers are `List Nat` (each element a byte value).  A Rust decoder of
signature `fn from_bytes(buf: &mut &[u8]) -> Result<T, FromBytesError>` is
embedded as a function `List Nat → Except FromBytesError (T × List Nat)`
returning the decoded value together with the bytes the mutable slice
reference still holds on return.  Encoders are functions to `List Nat`.

The derive macros generate one struct per event kind; the generated code is
uniform in the declared field list (the macro maps over `fields.named`), so
it is embedded as a generic engine over a declaration (`EventDecl`,
a list of named field types), exactly mirroring the token stream the macro
emits for each field in order.

Parts of the crate that the snapshot's sources do not include (the `fields`
module with the primitive integer / C-string codecs and the `Option`
instances, and the `events` module with `RawEvent` and the header writer)
are modelled from the specification; each such definition carries a doc
comment starting `Modelled from the spec:`.
-/

namespace Falco

/-- Decode errors of field decoders, after `FromBytesError` in the
`falco_event` crate: the variants used by the snapshot's sources are
`Truncated` (fewer bytes than a fixed-width or terminated decode needs),
`OddPairItemCount` (`cstr_pair_array.rs`), `InvalidDynDiscriminant`
(`dynamic_params.rs`) and `LeftoverData` (`binary_payload.rs`). -/
inductive FromBytesError where
  | truncated
  | oddPairItemCount
  | invalidDynDiscriminant
  | leftoverData
  deriving DecidableEq, Repr

/-- Payload-level decode errors, after `PayloadFromBytesError`:
`TypeMismatch`, `UnsupportedEventType(code)` and `NamedField(name, inner)`
appear in the derive sources; `truncatedEvent` models the `?`
conversion of a failure to read the length table out of a raw event
(`raw.params::<LengthType>()?`). -/
inductive PayloadFromBytesError where
  | typeMismatch
  | unsupportedEventType (code : Nat)
  | namedField (name : String) (inner : FromBytesError)
  | truncatedEvent (inner : FromBytesError)
  deriving DecidableEq, Repr

/-- Equality of decode results is decidable, so concrete decodes can be
checked by evaluation. -/
instance {ε α : Type} [DecidableEq ε] [DecidableEq α] : DecidableEq (Except ε α) := fun a b =>
  match a, b with
  | .error e1, .error e2 =>
    if h : e1 = e2 then .isTrue (by rw [h])
    else .isFalse (fun hc => h (by injection hc))
  | .error _, .ok _ => .isFalse (fun hc => Except.noConfusion hc)
  | .ok _, .error _ => .isFalse (fun hc => Except.noConfusion hc)
  | .ok v1, .ok v2 =>
    if h : v1 = v2 then .isTrue (by rw [h])
    else .isFalse (fun hc => h (by injection hc))

/-- The result of running a borrowing decoder: the decoded value and the
bytes the `&mut &[u8]` argument still designates on return. -/
abbrev DecodeResult (α : Type) := Except FromBytesError (α × List Nat)

/-- Little-endian encoding of `n` on `w` bytes, as the Rust side's
`write_u16::<NativeEndian>` / `write_u32` / `write_u64` do on the
little-endian targets the event format is defined for. -/
def natToLE : Nat → Nat → List Nat
  | 0, _ => []
  | w + 1, n => (n % 256) :: natToLE w (n / 256)

/-- Little-endian value of a byte list (inverse of `natToLE` on byte-valued
lists). -/
def leToNat : List Nat → Nat
  | [] => 0
  | b :: bs => b + 256 * leToNat bs

/-- Modelled from the spec: a fixed-width primitive decode takes the next
`w` bytes and fails with `Truncated` if fewer bytes remain than the fixed
width requires (the integer `FromBytes` impls are absent from the repository snapshot's `src/`). -/
def readBytes (w : Nat) : List Nat → DecodeResult (List Nat) := fun buf =>
  if buf.length < w then .error .truncated
  else .ok (buf.take w, buf.drop w)

/-- Modelled from the spec: integers are fixed-width, little-endian; decode
fails with `Truncated` on a short buffer. -/
def decodeUInt (w : Nat) : List Nat → DecodeResult Nat := fun buf =>
  match readBytes w buf with
  | .error e => .error e
  | .ok (bytes, rest) => .ok (leToNat bytes, rest)

/-- `byteorder`'s `read_u8` on a `&[u8]`: one byte, or an end-of-file error
that converts to `Truncated`. -/
def readU8 : List Nat → DecodeResult Nat := fun buf =>
  match buf with
  | [] => .error .truncated
  | b :: rest => .ok (b, rest)

/-- Modelled from the spec: a string decode scans for the terminating zero
byte and fails with `Truncated` if none is found before buffer end; the
terminator is stripped from the logical value but consumed from the buffer
(the `CStr` `FromBytes` impl is absent from the repository snapshot's `src/`; the behaviour
is also pinned by the `test_relative_path` test in
`src/falco_event/src/types/path/relative_path.rs`). -/
def cstrDecode : List Nat → DecodeResult (List Nat)
  | [] => .error .truncated
  | b :: rest =>
    if b = 0 then .ok ([], rest)
    else
      match cstrDecode rest with
      | .error e => .error e
      | .ok (s, r) => .ok (b :: s, r)

/-- Modelled from the spec: a string encodes as its bytes followed by the
terminating zero byte. -/
def cstrEncode (s : List Nat) : List Nat := s ++ [0]

/-- Modelled from the spec: the terminator is counted in `binary_size`. -/
def cstrBinarySize (s : List Nat) : Nat := s.length + 1

theorem natToLE_length (w n : Nat) : (natToLE w n).length = w := by
  induction w generalizing n with
  | zero => rfl
  | succ w ih => simp [natToLE, ih]

theorem leToNat_natToLE (w n : Nat) : leToNat (natToLE w n) = n % 256 ^ w := by
  induction w generalizing n with
  | zero => simp [natToLE, leToNat, Nat.mod_one]
  | succ w ih =>
    simp only [natToLE, leToNat, ih, pow_succ']
    exact Nat.mod_mul.symm

theorem natToLE_lt (w n : Nat) : ∀ b ∈ natToLE w n, b < 256 := by
  induction w generalizing n with
  | zero => simp [natToLE]
  | succ w ih =>
    intro b hb
    simp only [natToLE, List.mem_cons] at hb
    rcases hb with h | h
    · omega
    · exact ih _ _ h

theorem cstrDecode_of_no_zero (s rest : List Nat) (h : 0 ∉ s) :
    cstrDecode (s ++ 0 :: rest) = .ok (s, rest) := by
  induction s with
  | nil => simp [cstrDecode]
  | cons b bs ih =>
    simp only [List.mem_cons, not_or] at h
    have hb : ¬ b = 0 := fun hb => h.1 hb.symm
    simp [cstrDecode, hb, ih h.2]

theorem cstrDecode_consumes (buf s r : List Nat)
    (h : cstrDecode buf = .ok (s, r)) : buf = s ++ 0 :: r ∧ 0 ∉ s := by
  induction buf generalizing s r with
  | nil => simp [cstrDecode] at h
  | cons b rest ih =>
    by_cases hb : b = 0
    · subst hb
      simp only [cstrDecode, if_true, Except.ok.injEq, Prod.mk.injEq] at h
      obtain ⟨hs, hr⟩ := h
      subst hs
      subst hr
      simp
    · simp only [cstrDecode, if_neg hb] at h
      cases hrec : cstrDecode rest with
      | error e => rw [hrec] at h; exact absurd h (by simp)
      | ok pr =>
        obtain ⟨s₀, r₀⟩ := pr
        rw [hrec] at h
        simp only [Except.ok.injEq, Prod.mk.injEq] at h
        obtain ⟨hs, hr⟩ := h
        obtain ⟨h1, h2⟩ := ih s₀ r₀ hrec
        subst hs hr
        constructor
        · simp [h1]
        · simp only [List.mem_cons, not_or]
          exact ⟨fun h0 => hb h0.symm, h2⟩

theorem cstrDecode_length (buf s r : List Nat)
    (h : cstrDecode buf = .ok (s, r)) : r.length < buf.length := by
  obtain ⟨h1, _⟩ := cstrDecode_consumes buf s r h
  subst h1
  simp
  omega

/-! ## Socket addresses (`src/falco_event/src/types/net/sockaddr.rs`)

Address-family discriminants: the `PPM_AF_*` constants of the generated
`ffi` bindings (the falco driver ABI; `PPM_AF_LOCAL` is the "local"/unix
family). -/

def PPM_AF_UNSPEC : Nat := 0
def PPM_AF_LOCAL : Nat := 1
def PPM_AF_INET : Nat := 2
def PPM_AF_INET6 : Nat := 10

/-- `SockAddr` of `sockaddr.rs`: a unix-socket path (`&UnixPath`, kept as
its raw bytes), an IPv4 or IPv6 endpoint (address bytes plus a port), or
any other address family as the family number and the raw bytes. -/
inductive SockAddr where
  | unix (path : List Nat)
  | v4 (addr : List Nat) (port : Nat)
  | v6 (addr : List Nat) (port : Nat)
  | other (family : Nat) (raw : List Nat)
  deriving DecidableEq, Repr

/-- Modelled from the spec: an IPv4 endpoint is 4 address bytes plus a
2-byte port (the `EndpointV4` codec is absent from the repository snapshot's `src/`). -/
def endpointV4Decode : List Nat → DecodeResult (List Nat × Nat) := fun buf =>
  match readBytes 4 buf with
  | .error e => .error e
  | .ok (addr, rest) =>
    match decodeUInt 2 rest with
    | .error e => .error e
    | .ok (port, rest2) => .ok ((addr, port), rest2)

/-- Modelled from the spec: an IPv6 endpoint is 16 address bytes plus a
2-byte port. -/
def endpointV6Decode : List Nat → DecodeResult (List Nat × Nat) := fun buf =>
  match readBytes 16 buf with
  | .error e => .error e
  | .ok (addr, rest) =>
    match decodeUInt 2 rest with
    | .error e => .error e
    | .ok (port, rest2) => .ok ((addr, port), rest2)

/-- `ToBytes::write` for `SockAddr`: the family discriminant byte followed
by the family-specific payload (the unix path is written by the `&UnixPath`
codec, i.e. zero-terminated). -/
def SockAddr.write : SockAddr → List Nat
  | .unix p => PPM_AF_LOCAL :: cstrEncode p
  | .v4 addr port => PPM_AF_INET :: (addr ++ natToLE 2 port)
  | .v6 addr port => PPM_AF_INET6 :: (addr ++ natToLE 2 port)
  | .other af raw => (af % 256) :: raw

/-- `ToBytes::binary_size` for `SockAddr`: 1 discriminant byte plus the
inner value's size. -/
def SockAddr.binary_size : SockAddr → Nat
  | .unix p => 1 + cstrBinarySize p
  | .v4 _ _ => 1 + 6
  | .v6 _ _ => 1 + 18
  | .other _ raw => 1 + raw.length

/-- `FromBytes::from_bytes` for `SockAddr`: read the discriminant byte; for
`PPM_AF_LOCAL` the whole remaining slice is taken (`std::mem::take(buf)`)
and wrapped as the path, terminator and all; for `PPM_AF_INET`/`INET6` an
endpoint is decoded; for any other family the remaining bytes become the
value while the slice is left in place (the source passes `buf` itself into
`Self::Other`, not `mem::take(buf)`). -/
def SockAddr.from_bytes : List Nat → DecodeResult SockAddr := fun buf =>
  match buf with
  | [] => .error .truncated
  | variant :: rest =>
    if variant = PPM_AF_LOCAL then .ok (.unix rest, [])
    else if variant = PPM_AF_INET then
      match endpointV4Decode rest with
      | .error e => .error e
      | .ok (ep, r) => .ok (.v4 ep.1 ep.2, r)
    else if variant = PPM_AF_INET6 then
      match endpointV6Decode rest with
      | .error e => .error e
      | .ok (ep, r) => .ok (.v6 ep.1 ep.2, r)
    else .ok (.other variant rest, rest)

/-! ## Field types and field values

The derive macros generate one codec per declared field type; the snapshot's
sources are uniform in the field type, so the embedding carries the
declared type as data (`BaseType`, and `FieldType` adding the generated
dynamic-parameter enums) and interprets it with one engine, mirroring the
per-type impls. -/

/-- The field types covered by this development: the fixed-width unsigned
integers, booleans, zero-terminated strings, byte buffers, string arrays,
string-pair arrays, filesystem paths and socket addresses. -/
inductive BaseType where
  | u8
  | u16
  | u32
  | u64
  | boolT
  | charbuf
  | bytebuf
  | charbufArray
  | charbufPairArray
  | fspath
  | sockaddr
  deriving DecidableEq, Repr

/-- A declared field type: a base type, or a generated dynamic-parameter
enum given by its declared (discriminant, variant type) pairs in
declaration order. -/
inductive FieldType where
  | base (t : BaseType)
  | dyn (variants : List (Nat × BaseType))
  deriving DecidableEq, Repr

/-- A decoded field value.  `uint w n` is a `w`-byte unsigned integer;
`dynVal tag v` is a dynamic-parameter variant with its discriminant. -/
inductive Value where
  | uint (w : Nat) (n : Nat)
  | boolean (b : Bool)
  | str (s : List Nat)
  | bytes (b : List Nat)
  | strArray (ss : List (List Nat))
  | strPairArray (ps : List (List Nat × List Nat))
  | path (p : List Nat)
  | sock (sa : SockAddr)
  | dynVal (tag : Nat) (v : Value)
  deriving DecidableEq, Repr

/-- `ToBytes::write` for `Vec<&CStr>` (`cstr_array.rs`): each string in
order, each zero-terminated. -/
def strArrayEncode (ss : List (List Nat)) : List Nat := (ss.map cstrEncode).flatten

/-- `ToBytes::write` for `Vec<(&CStr, &CStr)>` (`cstr_pair_array.rs`): for
each pair, the first then the second string, each zero-terminated. -/
def strPairArrayEncode (ps : List (List Nat × List Nat)) : List Nat :=
  (ps.map (fun p => cstrEncode p.1 ++ cstrEncode p.2)).flatten

/-- The `ToBytes::write` of each field value: integers little-endian at
their width, booleans as a 4-byte integer 1/0 (`bool.rs`), strings and
paths zero-terminated, byte buffers verbatim, arrays concatenated, socket
addresses per `SockAddr.write`, and dynamic parameters as the discriminant
byte (`write_u8(DISC as u8)`, `dynamic_params.rs`) followed by the
variant's own encoding. -/
def encodeValue : Value → List Nat
  | .uint w n => natToLE w n
  | .boolean b => natToLE 4 (if b then 1 else 0)
  | .str s => cstrEncode s
  | .bytes b => b
  | .strArray ss => strArrayEncode ss
  | .strPairArray ps => strPairArrayEncode ps
  | .path p => cstrEncode p
  | .sock sa => sa.write
  | .dynVal tag v => (tag % 256) :: encodeValue v

/-- The `ToBytes::binary_size` of each field value (the string terminator
is counted; a boolean is always 4; a dynamic parameter is 1 plus the active
variant's size). -/
def binarySize : Value → Nat
  | .uint w _ => w
  | .boolean _ => 4
  | .str s => cstrBinarySize s
  | .bytes b => b.length
  | .strArray ss => (ss.map cstrBinarySize).sum
  | .strPairArray ps => (ps.map (fun p => cstrBinarySize p.1 + cstrBinarySize p.2)).sum
  | .path p => cstrBinarySize p
  | .sock sa => sa.binary_size
  | .dynVal _ v => 1 + binarySize v

/-- Whether a byte list contains no zero byte (a `CStr` / path invariant). -/
def hasNoNul (s : List Nat) : Bool := s.all (fun b => b != 0)

/-- Structural well-formedness of a `SockAddr` value, as the Rust types
guarantee it: 4/16 address bytes, a 16-bit port, an 8-bit family number. -/
def SockAddr.wf : SockAddr → Bool
  | .unix _ => true
  | .v4 addr port => addr.length == 4 && port < 2 ^ 16
  | .v6 addr port => addr.length == 16 && port < 2 ^ 16
  | .other af _ => af < 256

/-- Structural well-formedness of a field value, as the Rust types
guarantee it: integers fit their width, strings and paths hold no interior
zero byte, discriminants are bytes. -/
def valueWF : Value → Bool
  | .uint w n => n < 256 ^ w
  | .boolean _ => true
  | .str s => hasNoNul s
  | .bytes _ => true
  | .strArray ss => ss.all hasNoNul
  | .strPairArray ps => ps.all (fun p => hasNoNul p.1 && hasNoNul p.2)
  | .path p => hasNoNul p
  | .sock sa => sa.wf
  | .dynVal tag v => tag < 256 && valueWF v

/-- Whether a value inhabits a base field type. -/
def hasBaseType : Value → BaseType → Bool
  | .uint w _, .u8 => w == 1
  | .uint w _, .u16 => w == 2
  | .uint w _, .u32 => w == 4
  | .uint w _, .u64 => w == 8
  | .boolean _, .boolT => true
  | .str _, .charbuf => true
  | .bytes _, .bytebuf => true
  | .strArray _, .charbufArray => true
  | .strPairArray _, .charbufPairArray => true
  | .path _, .fspath => true
  | .sock _, .sockaddr => true
  | _, _ => false

/-- The first declared variant for a discriminant, in declaration order
(the generated `match` tries the arms in order). -/
def lookupTag (tag : Nat) : List (Nat × BaseType) → Option BaseType
  | [] => none
  | (t, ty) :: rest => if t = tag then some ty else lookupTag tag rest

/-- Whether a value inhabits a declared field type. -/
def hasFieldType : Value → FieldType → Bool
  | v, .base t => hasBaseType v t
  | .dynVal tag v, .dyn variants =>
    match lookupTag tag variants with
    | some ty => hasBaseType v ty
    | none => false
  | _, .dyn _ => false

/-- Map the decoded value of a decoder result, keeping the remaining
bytes. -/
def mapVal (f : α → Value) : DecodeResult α → DecodeResult Value
  | .error e => .error e
  | .ok (a, r) => .ok (f a, r)

/-- The loop of `Vec<&CStr>::from_bytes` (`cstr_array.rs`): decode strings
until the buffer is empty.  The recursion is bounded by an explicit fuel;
each iteration consumes at least one byte (`cstrDecode_length`), so
`buf.length` iterations always suffice and the zero-fuel branch is never
reached from `cstrListDecode`. -/
def cstrListDecodeAux : Nat → List Nat → Except FromBytesError (List (List Nat))
  | _, [] => .ok []
  | 0, _ :: _ => .error .truncated
  | fuel + 1, b :: rest =>
    match cstrDecode (b :: rest) with
    | .error e => .error e
    | .ok (s, r) =>
      match cstrListDecodeAux fuel r with
      | .error e => .error e
      | .ok ss => .ok (s :: ss)

/-- `Vec<&CStr>::from_bytes`: decode zero-terminated strings until the
buffer is exhausted. -/
def cstrListDecode (buf : List Nat) : Except FromBytesError (List (List Nat)) :=
  cstrListDecodeAux buf.length buf

/-- `Vec<&CStr>` as a field decoder: the loop runs until the buffer is
empty, so nothing remains. -/
def strArrayDecode : List Nat → DecodeResult (List (List Nat)) := fun buf =>
  match cstrListDecode buf with
  | .error e => .error e
  | .ok ss => .ok (ss, [])

/-- The pairing step of `Vec<(&CStr, &CStr)>::from_bytes`
(`cstr_pair_array.rs`): `chunks_exact(2)` collects consecutive pairs and a
non-empty remainder fails with `OddPairItemCount`. -/
def pairUp {α : Type} : List α → Except FromBytesError (List (α × α))
  | [] => .ok []
  | [_] => .error .oddPairItemCount
  | a :: b :: rest =>
    match pairUp rest with
    | .error e => .error e
    | .ok ps => .ok ((a, b) :: ps)

/-- `Vec<(&CStr, &CStr)>::from_bytes`: decode the flat string sequence,
then pair it up. -/
def strPairArrayDecode : List Nat → DecodeResult (List (List Nat × List Nat)) := fun buf =>
  match cstrListDecode buf with
  | .error e => .error e
  | .ok flat =>
    match pairUp flat with
    | .error e => .error e
    | .ok ps => .ok (ps, [])

/-- The decoder of each base field type, assembled from the per-type
`FromBytes` impls: integers and booleans fixed-width, strings and paths
zero-terminated, a byte buffer takes every remaining byte, arrays loop
over the slot, socket addresses per `SockAddr.from_bytes`. -/
def baseDecode : BaseType → List Nat → DecodeResult Value
  | .u8 => fun buf => mapVal (Value.uint 1) (decodeUInt 1 buf)
  | .u16 => fun buf => mapVal (Value.uint 2) (decodeUInt 2 buf)
  | .u32 => fun buf => mapVal (Value.uint 4) (decodeUInt 4 buf)
  | .u64 => fun buf => mapVal (Value.uint 8) (decodeUInt 8 buf)
  | .boolT => fun buf => mapVal (fun n => Value.boolean (n != 0)) (decodeUInt 4 buf)
  | .charbuf => fun buf => mapVal Value.str (cstrDecode buf)
  | .bytebuf => fun buf => .ok (.bytes buf, [])
  | .charbufArray => fun buf => mapVal Value.strArray (strArrayDecode buf)
  | .charbufPairArray => fun buf => mapVal Value.strPairArray (strPairArrayDecode buf)
  | .fspath => fun buf => mapVal Value.path (cstrDecode buf)
  | .sockaddr => fun buf => mapVal Value.sock (SockAddr.from_bytes buf)

/-- The generated `FromBytes` impl of a dynamic-parameter enum
(`dynamic_params.rs`): read the 1-byte discriminant, fail with
`InvalidDynDiscriminant` when it matches no declared variant, else decode
the remaining bytes as the matching variant's type. -/
def dynDecode (variants : List (Nat × BaseType)) : List Nat → DecodeResult Value := fun buf =>
  match readU8 buf with
  | .error e => .error e
  | .ok (tag, rest) =>
    match lookupTag tag variants with
    | none => .error .invalidDynDiscriminant
    | some ty => mapVal (Value.dynVal tag) (baseDecode ty rest)

/-- The decoder of a declared field type. -/
def fieldDecode : FieldType → List Nat → DecodeResult Value
  | .base t => baseDecode t
  | .dyn variants => dynDecode variants

/-- Modelled from the spec: every event field is optional; a field slot of
length zero decodes to `None` for every optional field type, without
invoking the field's own decoder (the `Option<T>` `FromBytes` impl is not
under the snapshot's `src/`). -/
def optionDecode (d : List Nat → DecodeResult Value) :
    List Nat → Except FromBytesError (Option Value × List Nat) := fun buf =>
  match buf with
  | [] => .ok (none, [])
  | _ :: _ =>
    match d buf with
    | .error e => .error e
    | .ok (v, r) => .ok (some v, r)

/-- Modelled from the spec: encoding `None` yields a zero-length slot (no
payload bytes). -/
def optionEncode : Option Value → List Nat
  | none => []
  | some v => encodeValue v

/-- Modelled from the spec: the `binary_size` of an absent optional field
is zero, so its length-table entry is 0. -/
def optionBinarySize : Option Value → Nat
  | none => 0
  | some v => binarySize v

/-! ## The event envelope and the derived payload codecs
(`src/falco_event_derive/src/binary_payload.rs`,
`src/falco_event_derive/src/event_info.rs`) -/

/-- `EventMetadata`: timestamp and thread id, detached from any event
kind. -/
structure EventMetadata where
  ts : Nat
  tid : Nat
  deriving DecidableEq, Repr

/-- One entry of the typed event registry: the compile-time identity the
generated `EventPayload` impl carries (numeric `ID`, `LARGE` flag, `NAME`)
together with the ordered, named field declarations of the generated
struct. -/
structure EventDecl where
  code : Nat
  large : Bool
  name : String
  fields : List (String × FieldType)
  deriving DecidableEq, Repr

/-- `::std::mem::size_of::<LengthType>()`: the length-table element width,
2 bytes for ordinary events and 4 bytes for large-payload events (the
generated `load_any` reads `u32` lengths exactly when `LARGE`). -/
def lengthSize (large : Bool) : Nat := if large then 4 else 2

/-- Modelled from the spec: an unparsed `RawEvent` is the header fields
(metadata, 16-bit event-type code, field count) plus the byte region after
the fixed header: the length table followed by all field payloads
back-to-back (the `events` module is absent from the repository snapshot's `src/`). -/
structure RawEvent where
  metadata : EventMetadata
  event_type : Nat
  nparams : Nat
  payload : List Nat
  deriving DecidableEq, Repr

/-- Modelled from the spec: `RawEvent::params::<T>()` first reads the
`nparams`-entry length table (entries of width `w`, little-endian) off the
front of the post-header region, failing with `Truncated` when it is too
short; what follows is the field-data region. -/
def readLengthTable (w : Nat) : Nat → List Nat → Except FromBytesError (List Nat × List Nat)
  | 0, buf => .ok ([], buf)
  | n + 1, buf =>
    match decodeUInt w buf with
    | .error e => .error e
    | .ok (len, rest) =>
      match readLengthTable w n rest with
      | .error e => .error e
      | .ok (lens, data) => .ok (len :: lens, data)

/-- Modelled from the spec: the parameter iterator yields one byte slice
per length-table entry, splitting the field-data region in declaration
order; an entry reaching past the end of the region yields `Truncated`
(the spec's truncation scenario), at which point iteration stops. -/
def paramSlots : List Nat → List Nat → List (Except FromBytesError (List Nat))
  | [], _ => []
  | l :: ls, data =>
    if data.length < l then [.error .truncated]
    else .ok (data.take l) :: paramSlots ls (data.drop l)

/-- The field-reading sequence `derive_from_bytes` generates, one step per
declared field in order: take the field's slot off the iterator (an
iterator error is wrapped as `NamedField(name, e)`; an exhausted iterator
gives `from_maybe_bytes(None)`, i.e. `None`), decode the slot with the
field's own (optional) decoder (a failure is wrapped as
`NamedField(name, e)`), and fail with `NamedField(name, LeftoverData)` if
the slot still holds bytes after the decoder returned. -/
def decodeFields : List (String × FieldType) → List (Except FromBytesError (List Nat)) →
    Except PayloadFromBytesError (List (Option Value))
  | [], _ => .ok []
  | (_, _) :: fs, [] =>
    match decodeFields fs [] with
    | .error e => .error e
    | .ok vs => .ok (none :: vs)
  | (name, ty) :: fs, slot :: slots =>
    match slot with
    | .error e => .error (.namedField name e)
    | .ok slotBytes =>
      match optionDecode (fieldDecode ty) slotBytes with
      | .error e => .error (.namedField name e)
      | .ok (v, leftover) =>
        if leftover.isEmpty then
          match decodeFields fs slots with
          | .error e => .error e
          | .ok vs => .ok (v :: vs)
        else .error (.namedField name .leftoverData)

/-- `FromRawEvent::parse` as `derive_from_bytes` generates it: fail with
`TypeMismatch` when the raw event's type code differs from the payload
type's `ID`; otherwise read the length table at the type's element width
and run the field-reading sequence. -/
def parsePayload (decl : EventDecl) (raw : RawEvent) :
    Except PayloadFromBytesError (List (Option Value)) :=
  if raw.event_type ≠ decl.code then .error .typeMismatch
  else
    match readLengthTable (lengthSize decl.large) raw.nparams raw.payload with
    | .error e => .error (.truncatedEvent e)
    | .ok (lengths, data) => decodeFields decl.fields (paramSlots lengths data)

/-- Modelled from the spec: the fixed header, little-endian — timestamp
(8 bytes), thread id (8 bytes), the total-event-length consistency field,
the event-type code (2 bytes) and the field count.  The spec leaves the
length field's width open and calls the field count 2 bytes, while the
derived `binary_size` (present in the snapshot) counts a 26-byte fixed header; the
widths are therefore fixed at 4 bytes each (8+8+4+2+4 = 26), the only
layout consistent with that constant. -/
def headerBytes (md : EventMetadata) (code : Nat) (totalLen : Nat) (nparams : Nat) : List Nat :=
  natToLE 8 md.ts ++ natToLE 8 md.tid ++ natToLE 4 totalLen ++ natToLE 2 code ++ natToLE 4 nparams

/-- The fixed header size: the constant 26 of the derived `binary_size`. -/
def headerSize : Nat := 26

/-- `PayloadToBytes::binary_size` as `derive_to_bytes` generates it:
`26 + size_of::<LengthType>() * num_fields` plus each field's
`binary_size()`. -/
def payloadBinarySize (decl : EventDecl) (values : List (Option Value)) : Nat :=
  headerSize + lengthSize decl.large * decl.fields.length + (values.map optionBinarySize).sum

/-- `PayloadToBytes::write` as `derive_to_bytes` generates it: every
field's `binary_size()` is converted to the length-table element type
first (`LengthType::try_from(..).unwrap()` — a size that does not fit the
element width panics, a fatal, non-recoverable encode error, embedded as
`none`); then `metadata.write_header_with_lengths(ID, lengths, writer)`
emits the fixed header and the length table, and each field is written in
declaration order with its own codec. -/
def payloadWrite (decl : EventDecl) (md : EventMetadata) (values : List (Option Value)) :
    Option (List Nat) :=
  if (values.map optionBinarySize).all (fun s => s < 256 ^ lengthSize decl.large) then
    some (headerBytes md decl.code
        (headerSize + lengthSize decl.large * values.length + (values.map optionBinarySize).sum)
        values.length
      ++ ((values.map optionBinarySize).map (natToLE (lengthSize decl.large))).flatten
      ++ (values.map optionEncode).flatten)
  else none

/-! ## The typed event registry (`raw_event_load_any` in
`src/falco_event_derive/src/event_info.rs`) -/

/-- A decoded `AnyEvent` value: the variant's numeric event code and its
decoded fields. -/
structure AnyEventVal where
  code : Nat
  fields : List (Option Value)
  deriving DecidableEq, Repr

/-- `Event<AnyEvent>`: metadata plus the decoded payload. -/
structure Event where
  metadata : EventMetadata
  params : AnyEventVal
  deriving DecidableEq, Repr

/-- The generated `match self.event_type as u32 { ... }` tries the
registry's arms in order: the first declaration whose code matches. -/
def findDecl (registry : List EventDecl) (code : Nat) : Option EventDecl :=
  registry.find? (fun d => d.code == code)

/-- `RawEvent::load_any` as `raw_event_load_any` generates it: look the
type code up in the registry; an unmatched code returns
`UnsupportedEventType(code)`; a matched arm decodes the payload at the
matched type's length width (no type check — the arm already matched) and
wraps it with a copy of the raw event's own metadata
(`metadata: self.metadata.clone()`). -/
def loadAny (registry : List EventDecl) (raw : RawEvent) : Except PayloadFromBytesError Event :=
  match findDecl registry raw.event_type with
  | none => .error (.unsupportedEventType raw.event_type)
  | some decl =>
    match readLengthTable (lengthSize decl.large) raw.nparams raw.payload with
    | .error e => .error (.truncatedEvent e)
    | .ok (lengths, data) =>
      match decodeFields decl.fields (paramSlots lengths data) with
      | .error e => .error e
      | .ok vs => .ok { metadata := raw.metadata, params := { code := decl.code, fields := vs } }

/-! ## Helper lemmas on the primitive codecs -/

theorem hasNoNul_iff (s : List Nat) : hasNoNul s = true ↔ 0 ∉ s := by
  simp only [hasNoNul, List.all_eq_true, bne_iff_ne, ne_eq]
  constructor
  · intro h hmem
    exact h 0 hmem rfl
  · intro h b hb hb0
    subst hb0
    exact h hb

theorem decodeUInt_append (w n : Nat) (rest : List Nat) :
    decodeUInt w (natToLE w n ++ rest) = .ok (n % 256 ^ w, rest) := by
  have hlen : (natToLE w n).length = w := natToLE_length w n
  simp only [decodeUInt, readBytes, List.length_append, hlen]
  rw [if_neg (by omega)]
  simp [List.take_left' hlen, List.drop_left' hlen, leToNat_natToLE]

theorem decodeUInt_natToLE (w n : Nat) (h : n < 256 ^ w) :
    decodeUInt w (natToLE w n) = .ok (n, []) := by
  have h2 := decodeUInt_append w n []
  rw [List.append_nil] at h2
  rw [h2, Nat.mod_eq_of_lt h]

theorem decodeUInt_short (w : Nat) (buf : List Nat) (h : buf.length < w) :
    decodeUInt w buf = .error .truncated := by
  simp [decodeUInt, readBytes, h]

theorem mapVal_ok {α : Type} (f : α → Value) (x : DecodeResult α) (v : Value) (r : List Nat)
    (h : mapVal f x = .ok (v, r)) : ∃ a, x = .ok (a, r) ∧ v = f a := by
  cases x with
  | error e => simp [mapVal] at h
  | ok p =>
    obtain ⟨a, r0⟩ := p
    simp only [mapVal, Except.ok.injEq, Prod.mk.injEq] at h
    exact ⟨a, by rw [h.2], h.1.symm⟩

theorem mapVal_error {α : Type} (f : α → Value) (x : DecodeResult α) (e : FromBytesError)
    (h : mapVal f x = .error e) : x = .error e := by
  cases x with
  | error e0 => simpa [mapVal] using h
  | ok p => obtain ⟨a, r0⟩ := p; simp [mapVal] at h

/-! ## The size law: the bytes written by a field's codec are exactly its
`binary_size()` -/

theorem strArrayEncode_length (ss : List (List Nat)) :
    (strArrayEncode ss).length = (ss.map cstrBinarySize).sum := by
  induction ss with
  | nil => rfl
  | cons s ss ih =>
    simp only [strArrayEncode, List.map_cons, List.flatten_cons, List.length_append,
      List.sum_cons] at ih ⊢
    simp [cstrEncode, cstrBinarySize, ih]

theorem strPairArrayEncode_length (ps : List (List Nat × List Nat)) :
    (strPairArrayEncode ps).length =
      (ps.map (fun p => cstrBinarySize p.1 + cstrBinarySize p.2)).sum := by
  induction ps with
  | nil => rfl
  | cons p ps ih =>
    have hcons : strPairArrayEncode (p :: ps) =
        (cstrEncode p.1 ++ cstrEncode p.2) ++ strPairArrayEncode ps := by
      simp [strPairArrayEncode]
    rw [hcons]
    simp only [List.length_append, List.map_cons, List.sum_cons, ih]
    simp [cstrEncode, cstrBinarySize]

theorem encodeValue_length (v : Value) (h : valueWF v = true) :
    (encodeValue v).length = binarySize v := by
  induction v with
  | uint w n => simp [encodeValue, binarySize, natToLE_length]
  | boolean b => simp [encodeValue, binarySize, natToLE_length]
  | str s => simp [encodeValue, binarySize, cstrEncode, cstrBinarySize]
  | bytes b => simp [encodeValue, binarySize]
  | strArray ss => simp [encodeValue, binarySize, strArrayEncode_length]
  | strPairArray ps => simp [encodeValue, binarySize, strPairArrayEncode_length]
  | path p => simp [encodeValue, binarySize, cstrEncode, cstrBinarySize]
  | sock sa =>
    cases sa with
    | unix p =>
      simp [encodeValue, binarySize, SockAddr.write, SockAddr.binary_size, cstrEncode,
        cstrBinarySize]
      omega
    | v4 addr port =>
      simp only [valueWF, SockAddr.wf, Bool.and_eq_true, beq_iff_eq,
        decide_eq_true_eq] at h
      simp [encodeValue, binarySize, SockAddr.write, SockAddr.binary_size, natToLE_length,
        h.1]
    | v6 addr port =>
      simp only [valueWF, SockAddr.wf, Bool.and_eq_true, beq_iff_eq,
        decide_eq_true_eq] at h
      simp [encodeValue, binarySize, SockAddr.write, SockAddr.binary_size, natToLE_length,
        h.1]
    | other af raw =>
      simp [encodeValue, binarySize, SockAddr.write, SockAddr.binary_size]
      omega
  | dynVal tag v ih =>
    simp only [valueWF, Bool.and_eq_true, decide_eq_true_eq] at h
    simp [encodeValue, binarySize, ih h.2]
    omega

/-- The size of an optional field's encoding, present or absent. -/
def optionWF : Option Value → Bool
  | none => true
  | some v => valueWF v

theorem optionEncode_length (v : Option Value) (h : optionWF v = true) :
    (optionEncode v).length = optionBinarySize v := by
  cases v with
  | none => rfl
  | some v => exact encodeValue_length v h

/-! ## Decoders only consume a prefix of the supplied slice -/

theorem readBytes_suffix (w : Nat) (buf bs rest : List Nat)
    (h : readBytes w buf = .ok (bs, rest)) : rest <:+ buf := by
  simp only [readBytes] at h
  split at h
  · exact absurd h (by simp)
  · simp only [Except.ok.injEq, Prod.mk.injEq] at h
    rw [← h.2]
    exact List.drop_suffix w buf

theorem decodeUInt_suffix (w : Nat) (buf : List Nat) (n : Nat) (rest : List Nat)
    (h : decodeUInt w buf = .ok (n, rest)) : rest <:+ buf := by
  simp only [decodeUInt] at h
  cases h0 : readBytes w buf with
  | error e => rw [h0] at h; exact absurd h (by simp)
  | ok p =>
    obtain ⟨bs, r⟩ := p
    rw [h0] at h
    simp only [Except.ok.injEq, Prod.mk.injEq] at h
    rw [← h.2]
    exact readBytes_suffix w buf bs r h0

theorem cstrDecode_suffix (buf s r : List Nat)
    (h : cstrDecode buf = .ok (s, r)) : r <:+ buf := by
  obtain ⟨h1, _⟩ := cstrDecode_consumes buf s r h
  exact ⟨s ++ [0], by rw [h1]; simp⟩

theorem endpointV4Decode_suffix (buf : List Nat) (ep : List Nat × Nat) (r : List Nat)
    (h : endpointV4Decode buf = .ok (ep, r)) : r <:+ buf := by
  cases h0 : readBytes 4 buf with
  | error e =>
    simp only [endpointV4Decode, h0] at h
    exact Except.noConfusion h
  | ok p =>
    obtain ⟨addr, rest⟩ := p
    cases h1 : decodeUInt 2 rest with
    | error e =>
      simp only [endpointV4Decode, h0, h1] at h
      exact Except.noConfusion h
    | ok q =>
      obtain ⟨port, rest2⟩ := q
      simp only [endpointV4Decode, h0, h1, Except.ok.injEq, Prod.mk.injEq] at h
      rw [← h.2]
      exact (decodeUInt_suffix 2 rest port rest2 h1).trans (readBytes_suffix 4 buf addr rest h0)

theorem endpointV6Decode_suffix (buf : List Nat) (ep : List Nat × Nat) (r : List Nat)
    (h : endpointV6Decode buf = .ok (ep, r)) : r <:+ buf := by
  cases h0 : readBytes 16 buf with
  | error e =>
    simp only [endpointV6Decode, h0] at h
    exact Except.noConfusion h
  | ok p =>
    obtain ⟨addr, rest⟩ := p
    cases h1 : decodeUInt 2 rest with
    | error e =>
      simp only [endpointV6Decode, h0, h1] at h
      exact Except.noConfusion h
    | ok q =>
      obtain ⟨port, rest2⟩ := q
      simp only [endpointV6Decode, h0, h1, Except.ok.injEq, Prod.mk.injEq] at h
      rw [← h.2]
      exact (decodeUInt_suffix 2 rest port rest2 h1).trans (readBytes_suffix 16 buf addr rest h0)

theorem sockAddr_from_bytes_suffix (buf : List Nat) (sa : SockAddr) (rest : List Nat)
    (h : SockAddr.from_bytes buf = .ok (sa, rest)) : rest <:+ buf := by
  cases buf with
  | nil => simp [SockAddr.from_bytes] at h
  | cons variant tail =>
    simp only [SockAddr.from_bytes] at h
    by_cases h1 : variant = PPM_AF_LOCAL
    · rw [if_pos h1] at h
      simp only [Except.ok.injEq, Prod.mk.injEq] at h
      rw [← h.2]
      exact List.nil_suffix
    · rw [if_neg h1] at h
      by_cases h2 : variant = PPM_AF_INET
      · rw [if_pos h2] at h
        cases h3 : endpointV4Decode tail with
        | error e => rw [h3] at h; exact absurd h (by simp)
        | ok p =>
          obtain ⟨ep, r⟩ := p
          rw [h3] at h
          simp only [Except.ok.injEq, Prod.mk.injEq] at h
          rw [← h.2]
          exact (endpointV4Decode_suffix tail ep r h3).trans (List.suffix_cons variant tail)
      · rw [if_neg h2] at h
        by_cases h4 : variant = PPM_AF_INET6
        · rw [if_pos h4] at h
          cases h3 : endpointV6Decode tail with
          | error e => rw [h3] at h; exact absurd h (by simp)
          | ok p =>
            obtain ⟨ep, r⟩ := p
            rw [h3] at h
            simp only [Except.ok.injEq, Prod.mk.injEq] at h
            rw [← h.2]
            exact (endpointV6Decode_suffix tail ep r h3).trans (List.suffix_cons variant tail)
        · rw [if_neg h4] at h
          simp only [Except.ok.injEq, Prod.mk.injEq] at h
          rw [← h.2]
          exact List.suffix_cons variant tail

theorem baseDecode_suffix (ty : BaseType) (buf : List Nat) (v : Value) (rest : List Nat)
    (h : baseDecode ty buf = .ok (v, rest)) : rest <:+ buf := by
  cases ty with
  | u8 =>
    obtain ⟨a, ha, -⟩ := mapVal_ok _ _ _ _ h
    exact decodeUInt_suffix _ _ _ _ ha
  | u16 =>
    obtain ⟨a, ha, -⟩ := mapVal_ok _ _ _ _ h
    exact decodeUInt_suffix _ _ _ _ ha
  | u32 =>
    obtain ⟨a, ha, -⟩ := mapVal_ok _ _ _ _ h
    exact decodeUInt_suffix _ _ _ _ ha
  | u64 =>
    obtain ⟨a, ha, -⟩ := mapVal_ok _ _ _ _ h
    exact decodeUInt_suffix _ _ _ _ ha
  | boolT =>
    obtain ⟨a, ha, -⟩ := mapVal_ok _ _ _ _ h
    exact decodeUInt_suffix _ _ _ _ ha
  | charbuf =>
    obtain ⟨a, ha, -⟩ := mapVal_ok _ _ _ _ h
    exact cstrDecode_suffix _ _ _ ha
  | bytebuf =>
    simp only [baseDecode, Except.ok.injEq, Prod.mk.injEq] at h
    rw [← h.2]
    exact List.nil_suffix
  | charbufArray =>
    obtain ⟨a, ha, -⟩ := mapVal_ok _ _ _ _ h
    cases h0 : cstrListDecode buf with
    | error e =>
      simp only [strArrayDecode, h0] at ha
      exact Except.noConfusion ha
    | ok ss =>
      simp only [strArrayDecode, h0, Except.ok.injEq, Prod.mk.injEq] at ha
      rw [← ha.2]
      exact List.nil_suffix
  | charbufPairArray =>
    obtain ⟨a, ha, -⟩ := mapVal_ok _ _ _ _ h
    cases h0 : cstrListDecode buf with
    | error e =>
      simp only [strPairArrayDecode, h0] at ha
      exact Except.noConfusion ha
    | ok flat =>
      cases h1 : pairUp flat with
      | error e =>
        simp only [strPairArrayDecode, h0, h1] at ha
        exact Except.noConfusion ha
      | ok ps =>
        simp only [strPairArrayDecode, h0, h1, Except.ok.injEq, Prod.mk.injEq] at ha
        rw [← ha.2]
        exact List.nil_suffix
  | fspath =>
    obtain ⟨a, ha, -⟩ := mapVal_ok _ _ _ _ h
    exact cstrDecode_suffix _ _ _ ha
  | sockaddr =>
    obtain ⟨a, ha, -⟩ := mapVal_ok _ _ _ _ h
    exact sockAddr_from_bytes_suffix _ _ _ ha

theorem fieldDecode_suffix (ft : FieldType) (buf : List Nat) (v : Value) (rest : List Nat)
    (h : fieldDecode ft buf = .ok (v, rest)) : rest <:+ buf := by
  cases ft with
  | base t => exact baseDecode_suffix t buf v rest h
  | dyn variants =>
    simp only [fieldDecode, dynDecode] at h
    cases buf with
    | nil => simp [readU8] at h
    | cons b tail =>
      simp only [readU8] at h
      cases h0 : lookupTag b variants with
      | none => rw [h0] at h; exact absurd h (by simp)
      | some ty =>
        rw [h0] at h
        obtain ⟨a, ha, -⟩ := mapVal_ok _ _ _ _ h
        exact (baseDecode_suffix ty tail a rest ha).trans (List.suffix_cons b tail)

theorem optionDecode_suffix (ft : FieldType) (buf : List Nat) (v : Option Value)
    (rest : List Nat) (h : optionDecode (fieldDecode ft) buf = .ok (v, rest)) :
    rest <:+ buf := by
  cases buf with
  | nil =>
    simp only [optionDecode, Except.ok.injEq, Prod.mk.injEq] at h
    cases h.2
    exact List.nil_suffix
  | cons b tail =>
    simp only [optionDecode] at h
    cases h0 : fieldDecode ft (b :: tail) with
    | error e => rw [h0] at h; exact absurd h (by simp)
    | ok p =>
      obtain ⟨a, r⟩ := p
      rw [h0] at h
      simp only [Except.ok.injEq, Prod.mk.injEq] at h
      rw [← h.2]
      exact fieldDecode_suffix ft (b :: tail) a r h0

/-! ## Primitive truncation -/

/-- The fixed width of each primitive field type (integers and booleans;
a boolean is stored as a 4-byte integer). -/
def primWidth : BaseType → Option Nat
  | .u8 => some 1
  | .u16 => some 2
  | .u32 => some 4
  | .u64 => some 8
  | .boolT => some 4
  | _ => none

theorem baseDecode_short (ty : BaseType) (w : Nat) (buf : List Nat)
    (hw : primWidth ty = some w) (h : buf.length < w) :
    baseDecode ty buf = .error .truncated := by
  cases ty with
  | u8 =>
    simp only [primWidth, Option.some.injEq] at hw
    subst hw
    simp [baseDecode, decodeUInt_short 1 buf h, mapVal]
  | u16 =>
    simp only [primWidth, Option.some.injEq] at hw
    subst hw
    simp [baseDecode, decodeUInt_short 2 buf h, mapVal]
  | u32 =>
    simp only [primWidth, Option.some.injEq] at hw
    subst hw
    simp [baseDecode, decodeUInt_short 4 buf h, mapVal]
  | u64 =>
    simp only [primWidth, Option.some.injEq] at hw
    subst hw
    simp [baseDecode, decodeUInt_short 8 buf h, mapVal]
  | boolT =>
    simp only [primWidth, Option.some.injEq] at hw
    subst hw
    simp [baseDecode, decodeUInt_short 4 buf h, mapVal]
  | charbuf => simp [primWidth] at hw
  | bytebuf => simp [primWidth] at hw
  | charbufArray => simp [primWidth] at hw
  | charbufPairArray => simp [primWidth] at hw
  | fspath => simp [primWidth] at hw
  | sockaddr => simp [primWidth] at hw

/-! ## String-array decoding: round trip and error shapes -/

theorem cstrListDecodeAux_nil (fuel : Nat) : cstrListDecodeAux fuel [] = .ok [] := by
  cases fuel <;> rfl

theorem cstrListDecodeAux_step (fuel : Nat) (buf s r : List Nat) (hne : buf ≠ [])
    (hdec : cstrDecode buf = .ok (s, r)) :
    cstrListDecodeAux (fuel + 1) buf =
      match cstrListDecodeAux fuel r with
      | .error e => .error e
      | .ok ss => .ok (s :: ss) := by
  cases buf with
  | nil => exact absurd rfl hne
  | cons b rest => simp [cstrListDecodeAux, hdec]

theorem strArrayEncode_cons (s : List Nat) (ss : List (List Nat)) :
    strArrayEncode (s :: ss) = s ++ 0 :: strArrayEncode ss := by
  simp [strArrayEncode, cstrEncode]

theorem cstrListDecodeAux_encode (ss : List (List Nat)) (h : ∀ s ∈ ss, 0 ∉ s) :
    ∀ fuel, (strArrayEncode ss).length ≤ fuel →
      cstrListDecodeAux fuel (strArrayEncode ss) = .ok ss := by
  induction ss with
  | nil =>
    intro fuel _
    simp [strArrayEncode, cstrListDecodeAux_nil]
  | cons s ss ih =>
    intro fuel hfuel
    rw [strArrayEncode_cons] at hfuel ⊢
    have hne : s ++ 0 :: strArrayEncode ss ≠ [] := by simp
    have hdec : cstrDecode (s ++ 0 :: strArrayEncode ss) = .ok (s, strArrayEncode ss) :=
      cstrDecode_of_no_zero s _ (h s (List.mem_cons_self s ss))
    cases fuel with
    | zero =>
      simp only [List.length_append, List.length_cons] at hfuel
      omega
    | succ fuel =>
      rw [cstrListDecodeAux_step fuel _ s _ hne hdec]
      have hrec : cstrListDecodeAux fuel (strArrayEncode ss) = .ok ss := by
        apply ih (fun x hx => h x (List.mem_cons_of_mem s hx)) fuel
        simp only [List.length_append, List.length_cons] at hfuel
        omega
      rw [hrec]

theorem cstrListDecode_encode (ss : List (List Nat)) (h : ∀ s ∈ ss, 0 ∉ s) :
    cstrListDecode (strArrayEncode ss) = .ok ss :=
  cstrListDecodeAux_encode ss h _ le_rfl

theorem readBytes_error (w : Nat) (buf : List Nat) (e : FromBytesError)
    (h : readBytes w buf = .error e) : e = .truncated := by
  simp only [readBytes] at h
  split at h
  · simp only [Except.error.injEq] at h
    exact h.symm
  · exact Except.noConfusion h

theorem decodeUInt_error (w : Nat) (buf : List Nat) (e : FromBytesError)
    (h : decodeUInt w buf = .error e) : e = .truncated := by
  cases h0 : readBytes w buf with
  | error e0 =>
    simp only [decodeUInt, h0, Except.error.injEq] at h
    rw [← h]
    exact readBytes_error w buf e0 h0
  | ok p =>
    obtain ⟨bs, r⟩ := p
    simp only [decodeUInt, h0] at h
    exact Except.noConfusion h

theorem cstrDecode_error (buf : List Nat) (e : FromBytesError)
    (h : cstrDecode buf = .error e) : e = .truncated := by
  induction buf generalizing e with
  | nil =>
    simp only [cstrDecode, Except.error.injEq] at h
    exact h.symm
  | cons b rest ih =>
    by_cases hb : b = 0
    · subst hb
      simp [cstrDecode] at h
    · simp only [cstrDecode, if_neg hb] at h
      cases h0 : cstrDecode rest with
      | error e0 =>
        simp only [h0, Except.error.injEq] at h
        rw [← h]
        exact ih e0 h0
      | ok p =>
        obtain ⟨s, r⟩ := p
        simp only [h0] at h
        exact Except.noConfusion h

theorem cstrListDecodeAux_error (fuel : Nat) :
    ∀ (buf : List Nat) (e : FromBytesError),
      cstrListDecodeAux fuel buf = .error e → e = .truncated := by
  induction fuel with
  | zero =>
    intro buf e h
    cases buf with
    | nil => simp [cstrListDecodeAux] at h
    | cons b rest =>
      simp only [cstrListDecodeAux, Except.error.injEq] at h
      exact h.symm
  | succ fuel ih =>
    intro buf e h
    cases buf with
    | nil => simp [cstrListDecodeAux] at h
    | cons b rest =>
      cases h0 : cstrDecode (b :: rest) with
      | error e0 =>
        simp only [cstrListDecodeAux, h0, Except.error.injEq] at h
        rw [← h]
        exact cstrDecode_error _ e0 h0
      | ok p =>
        obtain ⟨s, r⟩ := p
        cases h1 : cstrListDecodeAux fuel r with
        | error e0 =>
          simp only [cstrListDecodeAux, h0, h1, Except.error.injEq] at h
          rw [← h]
          exact ih r e0 h1
        | ok ss => simp [cstrListDecodeAux, h0, h1] at h

theorem pairUp_error {α : Type} :
    ∀ (l : List α) (e : FromBytesError), pairUp l = .error e → e = .oddPairItemCount
  | [], e, h => by simp [pairUp] at h
  | [_], e, h => by
    simp only [pairUp, Except.error.injEq] at h
    exact h.symm
  | _ :: _ :: rest, e, h => by
    cases h0 : pairUp rest with
    | error e0 =>
      simp only [pairUp, h0, Except.error.injEq] at h
      rw [← h]
      exact pairUp_error rest e0 h0
    | ok ps => simp [pairUp, h0] at h

theorem endpointV4Decode_error (buf : List Nat) (e : FromBytesError)
    (h : endpointV4Decode buf = .error e) : e = .truncated := by
  cases h0 : readBytes 4 buf with
  | error e0 =>
    simp only [endpointV4Decode, h0, Except.error.injEq] at h
    rw [← h]
    exact readBytes_error 4 buf e0 h0
  | ok p =>
    obtain ⟨addr, rest⟩ := p
    cases h1 : decodeUInt 2 rest with
    | error e0 =>
      simp only [endpointV4Decode, h0, h1, Except.error.injEq] at h
      rw [← h]
      exact decodeUInt_error 2 rest e0 h1
    | ok q =>
      obtain ⟨port, rest2⟩ := q
      simp only [endpointV4Decode, h0, h1] at h
      exact Except.noConfusion h

theorem endpointV6Decode_error (buf : List Nat) (e : FromBytesError)
    (h : endpointV6Decode buf = .error e) : e = .truncated := by
  cases h0 : readBytes 16 buf with
  | error e0 =>
    simp only [endpointV6Decode, h0, Except.error.injEq] at h
    rw [← h]
    exact readBytes_error 16 buf e0 h0
  | ok p =>
    obtain ⟨addr, rest⟩ := p
    cases h1 : decodeUInt 2 rest with
    | error e0 =>
      simp only [endpointV6Decode, h0, h1, Except.error.injEq] at h
      rw [← h]
      exact decodeUInt_error 2 rest e0 h1
    | ok q =>
      obtain ⟨port, rest2⟩ := q
      simp only [endpointV6Decode, h0, h1] at h
      exact Except.noConfusion h

theorem sockAddr_from_bytes_error (buf : List Nat) (e : FromBytesError)
    (h : SockAddr.from_bytes buf = .error e) : e = .truncated := by
  cases buf with
  | nil =>
    simp only [SockAddr.from_bytes, Except.error.injEq] at h
    exact h.symm
  | cons variant tail =>
    simp only [SockAddr.from_bytes] at h
    by_cases h1 : variant = PPM_AF_LOCAL
    · rw [if_pos h1] at h
      exact Except.noConfusion h
    · rw [if_neg h1] at h
      by_cases h2 : variant = PPM_AF_INET
      · rw [if_pos h2] at h
        cases h3 : endpointV4Decode tail with
        | error e0 =>
          rw [h3] at h
          simp only [Except.error.injEq] at h
          rw [← h]
          exact endpointV4Decode_error tail e0 h3
        | ok p =>
          obtain ⟨ep, r⟩ := p
          rw [h3] at h
          exact Except.noConfusion h
      · rw [if_neg h2] at h
        by_cases h4 : variant = PPM_AF_INET6
        · rw [if_pos h4] at h
          cases h3 : endpointV6Decode tail with
          | error e0 =>
            rw [h3] at h
            simp only [Except.error.injEq] at h
            rw [← h]
            exact endpointV6Decode_error tail e0 h3
          | ok p =>
            obtain ⟨ep, r⟩ := p
            rw [h3] at h
            exact Except.noConfusion h
        · rw [if_neg h4] at h
          exact Except.noConfusion h

/-- Every base-type decoder fails only with `Truncated` or
`OddPairItemCount`; in particular none of them produces
`InvalidDynDiscriminant`, which is emitted by the dynamic-parameter
decoder alone. -/
theorem baseDecode_error (ty : BaseType) (buf : List Nat) (e : FromBytesError)
    (h : baseDecode ty buf = .error e) : e = .truncated ∨ e = .oddPairItemCount := by
  cases ty with
  | u8 => exact Or.inl (decodeUInt_error 1 buf e (mapVal_error _ _ _ h))
  | u16 => exact Or.inl (decodeUInt_error 2 buf e (mapVal_error _ _ _ h))
  | u32 => exact Or.inl (decodeUInt_error 4 buf e (mapVal_error _ _ _ h))
  | u64 => exact Or.inl (decodeUInt_error 8 buf e (mapVal_error _ _ _ h))
  | boolT => exact Or.inl (decodeUInt_error 4 buf e (mapVal_error _ _ _ h))
  | charbuf => exact Or.inl (cstrDecode_error buf e (mapVal_error _ _ _ h))
  | bytebuf => exact Except.noConfusion h
  | charbufArray =>
    have ha := mapVal_error _ _ _ h
    cases h0 : cstrListDecode buf with
    | error e0 =>
      simp only [strArrayDecode, h0, Except.error.injEq] at ha
      rw [← ha]
      exact Or.inl (cstrListDecodeAux_error _ buf e0 h0)
    | ok ss =>
      simp only [strArrayDecode, h0] at ha
      exact Except.noConfusion ha
  | charbufPairArray =>
    have ha := mapVal_error _ _ _ h
    cases h0 : cstrListDecode buf with
    | error e0 =>
      simp only [strPairArrayDecode, h0, Except.error.injEq] at ha
      rw [← ha]
      exact Or.inl (cstrListDecodeAux_error _ buf e0 h0)
    | ok flat =>
      cases h1 : pairUp flat with
      | error e0 =>
        simp only [strPairArrayDecode, h0, h1, Except.error.injEq] at ha
        rw [← ha]
        exact Or.inr (pairUp_error flat e0 h1)
      | ok ps =>
        simp only [strPairArrayDecode, h0, h1] at ha
        exact Except.noConfusion ha
  | fspath => exact Or.inl (cstrDecode_error buf e (mapVal_error _ _ _ h))
  | sockaddr => exact Or.inl (sockAddr_from_bytes_error buf e (mapVal_error _ _ _ h))

/-! ## Pairing -/

/-- The flattened form of a pair list: elements `2*i` and `2*i + 1` are the
two components of pair `i`. -/
def flatPairs {α : Type} : List (α × α) → List α
  | [] => []
  | p :: rest => p.1 :: p.2 :: flatPairs rest

theorem strPairArrayEncode_eq_flat (ps : List (List Nat × List Nat)) :
    strPairArrayEncode ps = strArrayEncode (flatPairs ps) := by
  induction ps with
  | nil => rfl
  | cons p ps ih =>
    have h1 : strPairArrayEncode (p :: ps) =
        (cstrEncode p.1 ++ cstrEncode p.2) ++ strPairArrayEncode ps := by
      simp [strPairArrayEncode]
    have h2 : strArrayEncode (flatPairs (p :: ps)) =
        cstrEncode p.1 ++ (cstrEncode p.2 ++ strArrayEncode (flatPairs ps)) := by
      simp [strArrayEncode, flatPairs]
    rw [h1, h2, ih, List.append_assoc]

theorem pairUp_flatPairs {α : Type} : ∀ ps : List (α × α), pairUp (flatPairs ps) = .ok ps
  | [] => rfl
  | p :: rest => by
    simp only [flatPairs, pairUp, pairUp_flatPairs rest]

/-- The pairs `chunks_exact(2)` collects, ignoring a trailing odd element:
pair `i` is made of flat elements `2*i` and `2*i + 1`. -/
def pairsOf {α : Type} : List α → List (α × α)
  | [] => []
  | [_] => []
  | a :: b :: rest => (a, b) :: pairsOf rest

theorem pairUp_even {α : Type} :
    ∀ l : List α, l.length % 2 = 0 → pairUp l = .ok (pairsOf l)
  | [], _ => rfl
  | [_], h => by simp at h
  | a :: b :: rest, h => by
    have hr : rest.length % 2 = 0 := by
      simp only [List.length_cons] at h
      omega
    simp only [pairUp, pairsOf, pairUp_even rest hr]

theorem pairUp_odd {α : Type} :
    ∀ l : List α, l.length % 2 = 1 → pairUp l = .error .oddPairItemCount
  | [], h => by simp at h
  | [_], _ => rfl
  | a :: b :: rest, h => by
    have hr : rest.length % 2 = 1 := by
      simp only [List.length_cons] at h
      omega
    simp only [pairUp, pairUp_odd rest hr]

theorem pairsOf_getElem {α : Type} :
    ∀ (l : List α) (i : Nat) (a b : α),
      l[2 * i]? = some a → l[2 * i + 1]? = some b → (pairsOf l)[i]? = some (a, b)
  | [], i, a, b, h1, _ => by simp at h1
  | [x], i, a, b, h1, h2 => by
    cases i with
    | zero => simp at h2
    | succ j =>
      rw [show 2 * (j + 1) = (2 * j + 1) + 1 by omega] at h1
      simp at h1
  | x :: y :: rest, i, a, b, h1, h2 => by
    cases i with
    | zero =>
      simp only [Nat.mul_zero, Nat.zero_add, List.getElem?_cons_zero,
        List.getElem?_cons_succ, Option.some.injEq] at h1 h2
      subst h1
      subst h2
      simp [pairsOf]
    | succ j =>
      rw [show 2 * (j + 1) = (2 * j) + 1 + 1 by omega] at h1
      rw [show 2 * (j + 1) + 1 = ((2 * j) + 1) + 1 + 1 by omega] at h2
      simp only [List.getElem?_cons_succ] at h1 h2
      simp only [pairsOf, List.getElem?_cons_succ]
      exact pairsOf_getElem rest j a b h1 h2

/-! ## Field-level round trips: every base codec except the socket-address
codec decodes its own encoding back to the value, consuming it whole -/

theorem flatPairs_no_nul (ps : List (List Nat × List Nat))
    (hwf : ∀ p ∈ ps, hasNoNul p.1 = true ∧ hasNoNul p.2 = true) :
    ∀ s ∈ flatPairs ps, 0 ∉ s := by
  induction ps with
  | nil =>
    intro s hs
    simp [flatPairs] at hs
  | cons p rest ih =>
    intro s hs
    simp only [flatPairs, List.mem_cons] at hs
    rcases hs with h | h | h
    · subst h
      exact (hasNoNul_iff _).mp (hwf p (List.mem_cons_self p rest)).1
    · subst h
      exact (hasNoNul_iff _).mp (hwf p (List.mem_cons_self p rest)).2
    · exact ih (fun q hq => hwf q (List.mem_cons_of_mem p hq)) s h

theorem baseDecode_encode (ty : BaseType) (v : Value) (hty : hasBaseType v ty = true)
    (hwf : valueWF v = true) (hns : ty ≠ .sockaddr) :
    baseDecode ty (encodeValue v) = .ok (v, []) := by
  cases ty with
  | u8 =>
    cases v <;> simp [hasBaseType] at hty
    case uint w n =>
      subst hty
      simp only [valueWF, decide_eq_true_eq] at hwf
      simp [baseDecode, encodeValue, decodeUInt_natToLE 1 n hwf, mapVal]
  | u16 =>
    cases v <;> simp [hasBaseType] at hty
    case uint w n =>
      subst hty
      simp only [valueWF, decide_eq_true_eq] at hwf
      simp [baseDecode, encodeValue, decodeUInt_natToLE 2 n hwf, mapVal]
  | u32 =>
    cases v <;> simp [hasBaseType] at hty
    case uint w n =>
      subst hty
      simp only [valueWF, decide_eq_true_eq] at hwf
      simp [baseDecode, encodeValue, decodeUInt_natToLE 4 n hwf, mapVal]
  | u64 =>
    cases v <;> simp [hasBaseType] at hty
    case uint w n =>
      subst hty
      simp only [valueWF, decide_eq_true_eq] at hwf
      simp [baseDecode, encodeValue, decodeUInt_natToLE 8 n hwf, mapVal]
  | boolT =>
    cases v <;> simp [hasBaseType] at hty
    case boolean b => cases b <;> decide
  | charbuf =>
    cases v <;> simp [hasBaseType] at hty
    case str s =>
      have hnz : 0 ∉ s := (hasNoNul_iff s).mp hwf
      have hdec : cstrDecode (s ++ 0 :: []) = .ok (s, []) := cstrDecode_of_no_zero s [] hnz
      simp only [encodeValue, cstrEncode]
      simp [baseDecode, hdec, mapVal]
  | bytebuf =>
    cases v <;> simp [hasBaseType] at hty
    case bytes b => simp [baseDecode, encodeValue]
  | charbufArray =>
    cases v <;> simp [hasBaseType] at hty
    case strArray ss =>
      have hnz : ∀ s ∈ ss, 0 ∉ s := by
        intro s hs
        simp only [valueWF, List.all_eq_true] at hwf
        exact (hasNoNul_iff s).mp (hwf s hs)
      simp [baseDecode, encodeValue, strArrayDecode, cstrListDecode_encode ss hnz, mapVal]
  | charbufPairArray =>
    cases v <;> simp [hasBaseType] at hty
    case strPairArray ps =>
      have hwf2 : ∀ p ∈ ps, hasNoNul p.1 = true ∧ hasNoNul p.2 = true := by
        intro p hp
        simp only [valueWF, List.all_eq_true, Bool.and_eq_true] at hwf
        exact hwf p hp
      have hnz : ∀ s ∈ flatPairs ps, 0 ∉ s := flatPairs_no_nul ps hwf2
      simp only [encodeValue, strPairArrayEncode_eq_flat]
      simp [baseDecode, strPairArrayDecode, cstrListDecode_encode (flatPairs ps) hnz,
        pairUp_flatPairs, mapVal]
  | fspath =>
    cases v <;> simp [hasBaseType] at hty
    case path p =>
      have hnz : 0 ∉ p := (hasNoNul_iff p).mp hwf
      have hdec : cstrDecode (p ++ 0 :: []) = .ok (p, []) := cstrDecode_of_no_zero p [] hnz
      simp only [encodeValue, cstrEncode]
      simp [baseDecode, hdec, mapVal]
  | sockaddr => exact absurd rfl hns

/-! ## Dynamic parameters: tag handling -/

theorem dynDecode_nil (variants : List (Nat × BaseType)) :
    dynDecode variants [] = .error .truncated := rfl

theorem dynDecode_invalid_iff (variants : List (Nat × BaseType)) (b : Nat) (rest : List Nat) :
    dynDecode variants (b :: rest) = .error .invalidDynDiscriminant ↔
      lookupTag b variants = none := by
  constructor
  · intro h
    cases h0 : lookupTag b variants with
    | none => rfl
    | some ty =>
      simp only [dynDecode, readU8, h0] at h
      have hb := mapVal_error _ _ _ h
      rcases baseDecode_error ty rest _ hb with h1 | h1 <;> simp at h1
  · intro h
    simp [dynDecode, readU8, h]

theorem dynDecode_encode (variants : List (Nat × BaseType)) (tag : Nat) (ty : BaseType)
    (v : Value) (hlk : lookupTag tag variants = some ty) (htag : tag < 256)
    (hty : hasBaseType v ty = true) (hwf : valueWF v = true) (hns : ty ≠ .sockaddr) :
    dynDecode variants (encodeValue (.dynVal tag v)) = .ok (.dynVal tag v, []) := by
  have henc : encodeValue (.dynVal tag v) = tag % 256 :: encodeValue v := rfl
  rw [henc, Nat.mod_eq_of_lt htag]
  simp [dynDecode, readU8, hlk, baseDecode_encode ty v hty hwf hns, mapVal]

/-! ## The generated field-reading sequence -/

theorem decodeFields_error_shape :
    ∀ (fs : List (String × FieldType)) (slots : List (Except FromBytesError (List Nat)))
      (e : PayloadFromBytesError), decodeFields fs slots = .error e →
      ∃ name inner, e = .namedField name inner ∧ name ∈ fs.map Prod.fst := by
  intro fs
  induction fs with
  | nil =>
    intro slots e h
    simp [decodeFields] at h
  | cons f fs ih =>
    obtain ⟨name, ty⟩ := f
    intro slots e h
    cases slots with
    | nil =>
      cases hrec : decodeFields fs [] with
      | error e0 =>
        simp only [decodeFields, hrec, Except.error.injEq] at h
        obtain ⟨n0, i0, he, hm⟩ := ih [] e0 hrec
        exact ⟨n0, i0, by rw [← h]; exact he, List.mem_cons_of_mem _ hm⟩
      | ok vs => simp [decodeFields, hrec] at h
    | cons slot slots =>
      cases slot with
      | error e0 =>
        simp only [decodeFields, Except.error.injEq] at h
        exact ⟨name, e0, h.symm, List.mem_cons_self _ _⟩
      | ok slotBytes =>
        cases hopt : optionDecode (fieldDecode ty) slotBytes with
        | error e0 =>
          simp only [decodeFields, hopt, Except.error.injEq] at h
          exact ⟨name, e0, h.symm, List.mem_cons_self _ _⟩
        | ok p =>
          obtain ⟨v, leftover⟩ := p
          by_cases hleft : leftover.isEmpty = true
          · cases hrec : decodeFields fs slots with
            | error e0 =>
              simp only [decodeFields, hopt, hleft, if_true, hrec, Except.error.injEq] at h
              obtain ⟨n0, i0, he, hm⟩ := ih slots e0 hrec
              exact ⟨n0, i0, by rw [← h]; exact he, List.mem_cons_of_mem _ hm⟩
            | ok vs => simp [decodeFields, hopt, hleft, hrec] at h
          · simp only [Bool.not_eq_true] at hleft
            simp only [decodeFields, hopt, hleft, Bool.false_eq_true, if_false,
              Except.error.injEq] at h
            exact ⟨name, .leftoverData, h.symm, List.mem_cons_self _ _⟩

theorem decodeFields_head_slot_error (name : String) (ty : FieldType)
    (fs : List (String × FieldType)) (e : FromBytesError)
    (slots : List (Except FromBytesError (List Nat))) :
    decodeFields ((name, ty) :: fs) (.error e :: slots) = .error (.namedField name e) := rfl

theorem decodeFields_head_decode_error (name : String) (ty : FieldType)
    (fs : List (String × FieldType)) (slotBytes : List Nat)
    (slots : List (Except FromBytesError (List Nat))) (e : FromBytesError)
    (h : optionDecode (fieldDecode ty) slotBytes = .error e) :
    decodeFields ((name, ty) :: fs) (.ok slotBytes :: slots) = .error (.namedField name e) := by
  simp [decodeFields, h]

theorem decodeFields_head_leftover (name : String) (ty : FieldType)
    (fs : List (String × FieldType)) (slotBytes : List Nat)
    (slots : List (Except FromBytesError (List Nat))) (v : Option Value)
    (leftover : List Nat) (h : optionDecode (fieldDecode ty) slotBytes = .ok (v, leftover))
    (hne : leftover ≠ []) :
    decodeFields ((name, ty) :: fs) (.ok slotBytes :: slots) =
      .error (.namedField name .leftoverData) := by
  have hle : leftover.isEmpty = false := by
    cases leftover with
    | nil => exact absurd rfl hne
    | cons a l => rfl
  simp [decodeFields, h, hle]

theorem decodeFields_head_ok (name : String) (ty : FieldType)
    (fs : List (String × FieldType)) (slotBytes : List Nat)
    (slots : List (Except FromBytesError (List Nat))) (v : Option Value)
    (h : optionDecode (fieldDecode ty) slotBytes = .ok (v, [])) :
    decodeFields ((name, ty) :: fs) (.ok slotBytes :: slots) =
      (decodeFields fs slots).map (fun vs => v :: vs) := by
  simp only [decodeFields, h, List.isEmpty_nil, if_true]
  cases decodeFields fs slots <;> simp [Except.map]

theorem decodeFields_append (fs1 : List (String × FieldType)) :
    ∀ (fs2 : List (String × FieldType)) (slots1 slots2 : List (Except FromBytesError (List Nat)))
      (vs1 : List (Option Value)),
      slots1.length = fs1.length → decodeFields fs1 slots1 = .ok vs1 →
      decodeFields (fs1 ++ fs2) (slots1 ++ slots2) =
        (decodeFields fs2 slots2).map (fun vs => vs1 ++ vs) := by
  induction fs1 with
  | nil =>
    intro fs2 slots1 slots2 vs1 hlen h
    have hs : slots1 = [] := List.length_eq_zero.mp hlen
    subst hs
    simp only [decodeFields, Except.ok.injEq] at h
    subst h
    cases hres : decodeFields fs2 slots2 <;> simp [hres, Except.map]
  | cons f fs1 ih =>
    obtain ⟨name, ty⟩ := f
    intro fs2 slots1 slots2 vs1 hlen h
    cases slots1 with
    | nil => simp at hlen
    | cons slot slots1 =>
      simp only [List.length_cons, Nat.add_right_cancel_iff] at hlen
      cases slot with
      | error e => simp [decodeFields] at h
      | ok slotBytes =>
        cases hopt : optionDecode (fieldDecode ty) slotBytes with
        | error e => simp [decodeFields, hopt] at h
        | ok p =>
          obtain ⟨v, leftover⟩ := p
          by_cases hleft : leftover.isEmpty = true
          · cases hrec : decodeFields fs1 slots1 with
            | error e => simp [decodeFields, hopt, hleft, hrec] at h
            | ok vs =>
              have h2 : vs1 = v :: vs := by
                simp only [decodeFields, hopt, hleft, if_true, hrec, Except.ok.injEq] at h
                exact h.symm
              subst h2
              have hstep := ih fs2 slots1 slots2 vs hlen hrec
              simp only [List.cons_append]
              simp only [decodeFields, hopt, hleft, if_true, hstep]
              cases decodeFields fs2 slots2 <;> simp [Except.map]
          · simp only [Bool.not_eq_true] at hleft
            simp [decodeFields, hopt, hleft] at h

/-! ## Envelope sizes -/

theorem headerBytes_length (md : EventMetadata) (code totalLen nparams : Nat) :
    (headerBytes md code totalLen nparams).length = 26 := by
  simp [headerBytes, natToLE_length]

theorem natToLE_flatten_length (w : Nat) (sizes : List Nat) :
    ((sizes.map (natToLE w)).flatten).length = w * sizes.length := by
  induction sizes with
  | nil => simp
  | cons s ss ih =>
    simp only [List.map_cons, List.flatten_cons, List.length_append, natToLE_length, ih,
      List.length_cons, Nat.mul_succ]
    omega

theorem optionEncode_flatten_length (values : List (Option Value))
    (hwf : ∀ v ∈ values, optionWF v = true) :
    ((values.map optionEncode).flatten).length = (values.map optionBinarySize).sum := by
  induction values with
  | nil => rfl
  | cons v vs ih =>
    simp only [List.map_cons, List.flatten_cons, List.length_append, List.sum_cons]
    rw [optionEncode_length v (hwf v (List.mem_cons_self v vs)),
      ih (fun x hx => hwf x (List.mem_cons_of_mem v hx))]

/-! ## Typed parse and open decode -/

theorem parsePayload_unfold (decl : EventDecl) (raw : RawEvent)
    (heq : raw.event_type = decl.code) (lengths data : List Nat)
    (hrt : readLengthTable (lengthSize decl.large) raw.nparams raw.payload =
      .ok (lengths, data)) :
    parsePayload decl raw = decodeFields decl.fields (paramSlots lengths data) := by
  simp only [parsePayload, hrt]
  rw [if_neg (fun hne => hne heq)]

theorem loadAny_ok_shape (registry : List EventDecl) (raw : RawEvent) (ev : Event)
    (h : loadAny registry raw = .ok ev) :
    ∃ decl lengths data vs,
      findDecl registry raw.event_type = some decl ∧
      readLengthTable (lengthSize decl.large) raw.nparams raw.payload = .ok (lengths, data) ∧
      decodeFields decl.fields (paramSlots lengths data) = .ok vs ∧
      ev = { metadata := raw.metadata, params := { code := decl.code, fields := vs } } := by
  cases h0 : findDecl registry raw.event_type with
  | none => simp [loadAny, h0] at h
  | some decl =>
    cases hrt : readLengthTable (lengthSize decl.large) raw.nparams raw.payload with
    | error e => simp [loadAny, h0, hrt] at h
    | ok p =>
      obtain ⟨lengths, data⟩ := p
      cases hdf : decodeFields decl.fields (paramSlots lengths data) with
      | error e => simp [loadAny, h0, hrt, hdf] at h
      | ok vs =>
        simp only [loadAny, h0, hrt, hdf, Except.ok.injEq] at h
        exact ⟨decl, lengths, data, vs, rfl, hrt, hdf, h.symm⟩

/-! ## The claims -/

/-- C1: the spec's round-trip law says `decode(encode(v)) == v` for every
supported field type, and in particular that encoding `Unix("/tmp/sock")`
(family byte then `"/tmp/sock\0"`) decodes back to the same value.  The
implementation's `SockAddr::from_bytes` instead wraps the whole remaining slice —
terminator included — into the returned path (`std::mem::take(buf)`),
so decoding the encoding of `Unix("/tmp/sock")` yields
`Unix("/tmp/sock\0")`, a different value: evaluated here at that exact
input (`/tmp/sock` is the byte list `[47, 116, 109, 112, 47, 115, 111, 99,
107]`). -/
theorem sockaddr_unix_decode_keeps_terminator :
    SockAddr.write (.unix [47, 116, 109, 112, 47, 115, 111, 99, 107]) =
      [1, 47, 116, 109, 112, 47, 115, 111, 99, 107, 0] ∧
    SockAddr.from_bytes
        (SockAddr.write (.unix [47, 116, 109, 112, 47, 115, 111, 99, 107])) =
      .ok (.unix [47, 116, 109, 112, 47, 115, 111, 99, 107, 0], []) ∧
    SockAddr.unix [47, 116, 109, 112, 47, 115, 111, 99, 107, 0] ≠
      .unix [47, 116, 109, 112, 47, 115, 111, 99, 107] := by
  decide

/-- C4: open decode (`load_any`) on a raw event whose type code has no
registry entry returns `UnsupportedEventType` carrying that code (the
function takes `&self` and is total, so the input is neither consumed nor
mutated and no panic is possible); on success the produced `AnyEvent`
variant is the registry entry matching the raw event's code. -/
theorem load_any_registry_spec (registry : List EventDecl) (raw : RawEvent) :
    (findDecl registry raw.event_type = none →
      loadAny registry raw = .error (.unsupportedEventType raw.event_type)) ∧
    (∀ ev, loadAny registry raw = .ok ev →
      ∃ decl, findDecl registry raw.event_type = some decl ∧
        decl.code = raw.event_type ∧ ev.params.code = raw.event_type) := by
  constructor
  · intro h
    simp [loadAny, h]
  · intro ev h
    obtain ⟨decl, lengths, data, vs, h0, hrt, hdf, hev⟩ := loadAny_ok_shape registry raw ev h
    have hcode : decl.code = raw.event_type := by
      have hp := List.find?_some h0
      simpa using hp
    subst hev
    exact ⟨decl, h0, hcode, hcode⟩

/-- C10: whenever `load_any` succeeds, the produced event's metadata
(timestamp and thread id) is the raw event's own metadata, copied unchanged
(`metadata: self.metadata.clone()` in the generated code). -/
theorem load_any_preserves_metadata (registry : List EventDecl) (raw : RawEvent) (ev : Event)
    (h : loadAny registry raw = .ok ev) : ev.metadata = raw.metadata := by
  obtain ⟨decl, lengths, data, vs, h0, hrt, hdf, hev⟩ := loadAny_ok_shape registry raw ev h
  subst hev
  rfl

/-- C10 witness: a one-field `u8` event kind with code 42, decoded from a
raw event with timestamp 1 and thread id 2. -/
theorem load_any_preserves_metadata_witness :
    (Event.mk (EventMetadata.mk 1 2) (AnyEventVal.mk 42 [some (Value.uint 1 7)])).metadata =
      (RawEvent.mk (EventMetadata.mk 1 2) 42 1 [1, 0, 7]).metadata :=
  load_any_preserves_metadata
    [EventDecl.mk 42 false "ev" [("a", .base .u8)]]
    (RawEvent.mk (EventMetadata.mk 1 2) 42 1 [1, 0, 7])
    (Event.mk (EventMetadata.mk 1 2) (AnyEventVal.mk 42 [some (Value.uint 1 7)]))
    (by decide)

/-- C5: a zero-length field slot decodes to `None` for every optional field
type without invoking the field's own decoder (the result is the same for
every decoder `d`); encoding `None` writes no payload bytes and has
`binary_size` 0, so its length-table entry is 0; and the generated
field-reading sequence turns an empty slot into a `None` field. -/
theorem optional_field_absence_spec :
    (∀ d : List Nat → DecodeResult Value, optionDecode d [] = .ok (none, [])) ∧
    optionEncode none = [] ∧
    optionBinarySize none = 0 ∧
    (∀ (name : String) (ty : FieldType) (fs : List (String × FieldType))
      (slots : List (Except FromBytesError (List Nat))),
      decodeFields ((name, ty) :: fs) (.ok [] :: slots) =
        (decodeFields fs slots).map (fun vs => none :: vs)) :=
  ⟨fun _ => rfl, rfl, rfl,
    fun name ty fs slots => decodeFields_head_ok name ty fs [] slots none rfl⟩

/-- C6 (amended): the generated dynamic-parameter codec writes the 1-byte
tag then the variant's own encoding; decoding reads the tag byte
(`Truncated` on an empty buffer) and fails with `InvalidDynDiscriminant`
exactly when the tag matches no declared variant; and encode-then-decode
returns the same variant with an equal payload whenever the variant's own
codec round-trips — which holds for every variant type except socket
addresses (whose unix-path decoder keeps the trailing terminator, see the
C1 record). -/
theorem dyn_param_tag_spec (variants : List (Nat × BaseType)) :
    (∀ (tag : Nat) (v : Value),
      encodeValue (.dynVal tag v) = (tag % 256) :: encodeValue v) ∧
    dynDecode variants [] = .error .truncated ∧
    (∀ (b : Nat) (rest : List Nat),
      dynDecode variants (b :: rest) = .error .invalidDynDiscriminant ↔
        lookupTag b variants = none) ∧
    (∀ (tag : Nat) (ty : BaseType) (v : Value),
      lookupTag tag variants = some ty → tag < 256 → hasBaseType v ty = true →
      valueWF v = true → ty ≠ .sockaddr →
      dynDecode variants (encodeValue (.dynVal tag v)) = .ok (.dynVal tag v, [])) :=
  ⟨fun _ _ => rfl, dynDecode_nil variants,
    fun b rest => dynDecode_invalid_iff variants b rest,
    fun tag ty v h1 h2 h3 h4 h5 => dynDecode_encode variants tag ty v h1 h2 h3 h4 h5⟩

/-- C6 counterexample: a dynamic-parameter declaration may declare a
socket-address variant (`PT_SOCKADDR` is an accepted variant type in the
generated code); for the declaration `{5 → sockaddr}` and the value
`Unix("/")`, encoding then decoding yields a different payload (the path
gains the trailing zero byte), refuting the unconditional "equal payload"
reading of the claim. -/
theorem dyn_param_sockaddr_counterexample :
    dynDecode [(5, .sockaddr)] (encodeValue (.dynVal 5 (.sock (.unix [47])))) =
      .ok (.dynVal 5 (.sock (.unix [47, 0])), []) ∧
    Value.dynVal 5 (.sock (.unix [47, 0])) ≠ .dynVal 5 (.sock (.unix [47])) := by
  decide

/-- C7: decoding a flat zero-terminated string sequence as a string-pair
array fails with the odd-item-count error (`OddPairItemCount` in the code,
the spec's `OddItemCount` kind) when the flattened sequence has odd length,
and for even length decodes to the pairs in order: pair `i` is made of flat
elements `2*i` and `2*i + 1`, with the whole slot consumed. -/
theorem pair_array_decode_spec (ss : List (List Nat)) (h : ∀ s ∈ ss, 0 ∉ s) :
    (ss.length % 2 = 1 →
      strPairArrayDecode (strArrayEncode ss) = .error .oddPairItemCount) ∧
    (ss.length % 2 = 0 →
      strPairArrayDecode (strArrayEncode ss) = .ok (pairsOf ss, [])) ∧
    (∀ (i : Nat) (a b : List Nat), ss[2 * i]? = some a → ss[2 * i + 1]? = some b →
      (pairsOf ss)[i]? = some (a, b)) := by
  have hflat : cstrListDecode (strArrayEncode ss) = .ok ss := cstrListDecode_encode ss h
  refine ⟨?_, ?_, fun i a b h1 h2 => pairsOf_getElem ss i a b h1 h2⟩
  · intro hodd
    simp [strPairArrayDecode, hflat, pairUp_odd ss hodd]
  · intro heven
    simp [strPairArrayDecode, hflat, pairUp_even ss heven]

/-- C7 witness: the flat sequence `["f"]` has odd length and fails with the
odd-item-count error. -/
theorem pair_array_decode_spec_witness :
    strPairArrayDecode (strArrayEncode [[102]]) = .error .oddPairItemCount :=
  (pair_array_decode_spec [[102]] (by decide)).1 (by decide)

/-- C8: every primitive decode (fixed-width integers; booleans are a 4-byte
integer) fails with `Truncated` when fewer bytes remain than its fixed
width, and no decoder — base, dynamic-parameter or optional — ever reads
past the end of the supplied slice: whatever it leaves unconsumed is a
suffix of the input, and every decoder is a total function (no panic). -/
theorem decode_truncation_safety :
    (∀ (ty : BaseType) (w : Nat) (buf : List Nat), primWidth ty = some w →
      buf.length < w → baseDecode ty buf = .error .truncated) ∧
    (∀ (ty : BaseType) (buf : List Nat) (v : Value) (rest : List Nat),
      baseDecode ty buf = .ok (v, rest) → rest <:+ buf) ∧
    (∀ (ft : FieldType) (buf : List Nat) (v : Value) (rest : List Nat),
      fieldDecode ft buf = .ok (v, rest) → rest <:+ buf) ∧
    (∀ (ft : FieldType) (buf : List Nat) (v : Option Value) (rest : List Nat),
      optionDecode (fieldDecode ft) buf = .ok (v, rest) → rest <:+ buf) :=
  ⟨baseDecode_short, baseDecode_suffix, fieldDecode_suffix, optionDecode_suffix⟩

/-- C2: for an event payload with `N` declared fields the serialized
envelope is the fixed header, then the `N`-entry length table (2-byte
entries for ordinary events, 4-byte for large-payload events), then each
field's encoding concatenated in declaration order; the total size equals
the header size plus the length-table size plus the sum of the fields'
`binary_size()` values; and a field whose `binary_size()` does not fit the
length-table element width is a fatal, non-recoverable encode error
(`LengthType::try_from(..).unwrap()` panics, embedded as `none`). -/
theorem payload_write_envelope_spec (decl : EventDecl) (md : EventMetadata)
    (values : List (Option Value)) (hlen : values.length = decl.fields.length)
    (hwf : ∀ v ∈ values, optionWF v = true) :
    (lengthSize false = 2 ∧ lengthSize true = 4) ∧
    ((values.map optionBinarySize).all (fun s => s < 256 ^ lengthSize decl.large) = true →
      payloadWrite decl md values =
        some (headerBytes md decl.code
            (headerSize + lengthSize decl.large * values.length +
              (values.map optionBinarySize).sum) values.length
          ++ ((values.map optionBinarySize).map (natToLE (lengthSize decl.large))).flatten
          ++ (values.map optionEncode).flatten) ∧
      (∀ out, payloadWrite decl md values = some out →
        out.length = payloadBinarySize decl values)) ∧
    ((values.map optionBinarySize).all (fun s => s < 256 ^ lengthSize decl.large) = false →
      payloadWrite decl md values = none) := by
  refine ⟨⟨rfl, rfl⟩, ?_, ?_⟩
  · intro hall
    constructor
    · simp [payloadWrite, hall]
    · intro out hout
      simp only [payloadWrite, hall, if_true, Option.some.injEq] at hout
      rw [← hout]
      simp only [List.length_append, headerBytes_length, natToLE_flatten_length,
        optionEncode_flatten_length values hwf, List.length_map, payloadBinarySize,
        headerSize, hlen]
  · intro hfalse
    simp [payloadWrite, hfalse]

/-- C2 witness: the spec's own scenario — three declared fields holding
`u64(5)`, an absent string and the byte buffer `[0xAA, 0xBB]` — encodes to
the 26-byte header, the length table `[8, 0, 2]` and the field bytes, 42
bytes in all. -/
theorem payload_write_envelope_spec_witness :
    payloadWrite
        (EventDecl.mk 64 false "scenario"
          [("field1", .base .u64), ("field2", .base .charbuf), ("field3", .base .bytebuf)])
        (EventMetadata.mk 1 2)
        [some (.uint 8 5), none, some (.bytes [170, 187])] =
      some [1, 0, 0, 0, 0, 0, 0, 0,
            2, 0, 0, 0, 0, 0, 0, 0,
            42, 0, 0, 0,
            64, 0,
            3, 0, 0, 0,
            8, 0, 0, 0, 2, 0,
            5, 0, 0, 0, 0, 0, 0, 0,
            170, 187] := by
  have h := (payload_write_envelope_spec
      (EventDecl.mk 64 false "scenario"
        [("field1", .base .u64), ("field2", .base .charbuf), ("field3", .base .bytebuf)])
      (EventMetadata.mk 1 2)
      [some (.uint 8 5), none, some (.bytes [170, 187])]
      (by decide) (by decide)).2.1 (by decide)
  exact h.1.trans (by decide)

/-- C3: typed decode fails with `TypeMismatch` exactly when the raw event's
type code differs from the expected payload type's numeric code; otherwise
the payload region is split into slots per the length table and each slot
is decoded in order against its declared field type, every failure being
wrapped as `NamedField(name, inner)` for the declared field that failed —
the inner error being the slot/iterator error, the field decoder's own
error, or `LeftoverData` when the slot still holds bytes after the field's
decoder returned. -/
theorem typed_parse_error_spec (decl : EventDecl) (raw : RawEvent) :
    (parsePayload decl raw = .error .typeMismatch ↔ raw.event_type ≠ decl.code) ∧
    (∀ name e, parsePayload decl raw = .error (.namedField name e) →
      name ∈ decl.fields.map Prod.fst) ∧
    (∀ (fs1 fs2 : List (String × FieldType)) (name : String) (ty : FieldType)
      (lengths data : List Nat) (slots1 : List (Except FromBytesError (List Nat)))
      (slot : Except FromBytesError (List Nat))
      (slots2 : List (Except FromBytesError (List Nat))) (vs1 : List (Option Value)),
      raw.event_type = decl.code →
      readLengthTable (lengthSize decl.large) raw.nparams raw.payload = .ok (lengths, data) →
      decl.fields = fs1 ++ (name, ty) :: fs2 →
      paramSlots lengths data = slots1 ++ slot :: slots2 →
      slots1.length = fs1.length →
      decodeFields fs1 slots1 = .ok vs1 →
      ((∀ e, slot = .error e →
          parsePayload decl raw = .error (.namedField name e)) ∧
       (∀ slotBytes e, slot = .ok slotBytes →
          optionDecode (fieldDecode ty) slotBytes = .error e →
          parsePayload decl raw = .error (.namedField name e)) ∧
       (∀ slotBytes v leftover, slot = .ok slotBytes →
          optionDecode (fieldDecode ty) slotBytes = .ok (v, leftover) → leftover ≠ [] →
          parsePayload decl raw = .error (.namedField name .leftoverData)) ∧
       (∀ slotBytes v, slot = .ok slotBytes →
          optionDecode (fieldDecode ty) slotBytes = .ok (v, []) →
          parsePayload decl raw =
            (decodeFields fs2 slots2).map (fun vs2 => vs1 ++ v :: vs2)))) := by
  refine ⟨?_, ?_, ?_⟩
  · constructor
    · intro h heq
      cases hrt : readLengthTable (lengthSize decl.large) raw.nparams raw.payload with
      | error e =>
        have h2 : parsePayload decl raw = .error (.truncatedEvent e) := by
          simp only [parsePayload, hrt]
          rw [if_neg (fun hne => hne heq)]
        rw [h2] at h
        simp only [Except.error.injEq] at h
        exact PayloadFromBytesError.noConfusion h
      | ok p =>
        obtain ⟨lengths, data⟩ := p
        rw [parsePayload_unfold decl raw heq lengths data hrt] at h
        obtain ⟨n, i, hshape, -⟩ := decodeFields_error_shape _ _ _ h
        exact PayloadFromBytesError.noConfusion hshape
    · intro hne
      simp only [parsePayload]
      rw [if_pos hne]
  · intro name e h
    by_cases heq : raw.event_type = decl.code
    · cases hrt : readLengthTable (lengthSize decl.large) raw.nparams raw.payload with
      | error e0 =>
        have h2 : parsePayload decl raw = .error (.truncatedEvent e0) := by
          simp only [parsePayload, hrt]
          rw [if_neg (fun hne => hne heq)]
        rw [h2] at h
        simp only [Except.error.injEq] at h
        exact PayloadFromBytesError.noConfusion h
      | ok p =>
        obtain ⟨lengths, data⟩ := p
        rw [parsePayload_unfold decl raw heq lengths data hrt] at h
        obtain ⟨n, i, hshape, hmem⟩ := decodeFields_error_shape _ _ _ h
        injection hshape with hn hi
        subst hn
        exact hmem
    · have h2 : parsePayload decl raw = .error .typeMismatch := by
        simp only [parsePayload]
        rw [if_pos heq]
      rw [h2] at h
      simp only [Except.error.injEq] at h
      exact PayloadFromBytesError.noConfusion h
  · intro fs1 fs2 name ty lengths data slots1 slot slots2 vs1 heq hrt hfields hslots hlen1 hdf1
    have hparse : parsePayload decl raw =
        (decodeFields ((name, ty) :: fs2) (slot :: slots2)).map (fun vs => vs1 ++ vs) := by
      rw [parsePayload_unfold decl raw heq lengths data hrt, hfields, hslots]
      exact decodeFields_append fs1 ((name, ty) :: fs2) slots1 (slot :: slots2) vs1 hlen1 hdf1
    refine ⟨?_, ?_, ?_, ?_⟩
    · intro e hslot
      subst hslot
      rw [hparse, decodeFields_head_slot_error]
      rfl
    · intro slotBytes e hslot hopt
      subst hslot
      rw [hparse, decodeFields_head_decode_error name ty fs2 slotBytes slots2 e hopt]
      rfl
    · intro slotBytes v leftover hslot hopt hne
      subst hslot
      rw [hparse, decodeFields_head_leftover name ty fs2 slotBytes slots2 v leftover hopt hne]
      rfl
    · intro slotBytes v hslot hopt
      subst hslot
      rw [hparse, decodeFields_head_ok name ty fs2 slotBytes slots2 v hopt]
      cases decodeFields fs2 slots2 <;> simp [Except.map]

end Falco
